import Mathlib

/-!
Verification of the text-layout-and-rasterization core of ucpr/ogpgen
(src/lib.rs): `layout_paragraph`, `render_glyphs`, `render_text`, and the
`text` query-parameter check of `main`.

Modelling conventions:
* Pixel coordinates, font metrics, kerning and coverage values are `f32` in
  the Rust source; they are embedded as exact rationals (`ℚ`).  All claims
  settled here depend only on ordered-field reasoning and on values (such as
  255, 1/2, 127.5) that `f32` represents and combines exactly, so the
  rational model computes the same results as the source at every input used.
* The `ab_glyph` font is external library state; it is embedded as an oracle:
  a structure of metric functions (`ScaledFontM`, mirroring the
  `ScaleFont` view built by `font.as_scaled`) plus an outline oracle
  `Glyph → Option Outline` (mirroring `font.outline_glyph`, whose `draw`
  callback visits a list of `(x, y, coverage)` triples).
* `ImageBuffer<Rgba<u8>, Vec<u8>>` is embedded as a width, a height and a
  row-major pixel list; `get_pixel_mut`'s out-of-bounds panic is embedded as
  `Except.error`.
* Rust numeric casts `as u8` / `as u32` on `f32` truncate toward zero and
  saturate; `ratToU8` / `ratToU32` mirror this for non-negative-or-clamped
  rational inputs.
-/

deriving instance DecidableEq for Except

namespace Ogpgen

/-- Unicode code points with the White_Space property, as used by Rust's
`char::is_whitespace`. -/
def whitespaceCodes : List Nat :=
  [9, 10, 11, 12, 13, 32, 133, 160, 5760,
   8192, 8193, 8194, 8195, 8196, 8197, 8198, 8199, 8200, 8201, 8202,
   8232, 8233, 8239, 8287, 12288]

/-- Rust `char::is_whitespace`: the Unicode White_Space property. -/
def isWhitespace (c : Char) : Bool :=
  whitespaceCodes.contains c.toNat

/-- Rust `char::is_control`: the Unicode Cc category,
U+0000..U+001F and U+007F..U+009F. -/
def isControl (c : Char) : Bool :=
  decide (c.toNat ≤ 31 ∨ (127 ≤ c.toNat ∧ c.toNat ≤ 159))

/-- A font-internal glyph identifier (`ab_glyph::GlyphId`). -/
structure GlyphId where
  gid : Nat
deriving DecidableEq, Repr

/-- A 2D point (`ab_glyph::Point`), with `f32` coordinates modelled as `ℚ`. -/
structure Pt where
  x : ℚ
  y : ℚ
deriving DecidableEq, Repr

/-- `ab_glyph::Glyph` as used by the source: a glyph id together with the
pen position assigned by layout (the scale is fixed per `render_text` call
and plays no further role, so it is not carried). -/
structure Glyph where
  id : GlyphId
  position : Pt
deriving DecidableEq, Repr

/-- The scaled-font metrics view built by `font.as_scaled(font_scale)`:
exactly the operations `layout_paragraph` calls on `font`. -/
structure ScaledFontM where
  ascent : ℚ
  height : ℚ
  line_gap : ℚ
  glyph_id : Char → GlyphId
  h_advance : GlyphId → ℚ
  kern : GlyphId → GlyphId → ℚ

/-- The §4.1 contract for a valid scaled font: non-negative vertical
metrics and non-negative horizontal advances (kerning is signed). -/
def ValidFont (f : ScaledFontM) : Prop :=
  0 ≤ f.ascent ∧ 0 ≤ f.height ∧ 0 ≤ f.line_gap ∧ ∀ g, 0 ≤ f.h_advance g

/-- Kerning never pulls the pen left of the previous glyph's origin:
every kerning adjustment is at least the negation of the previous glyph's
advance. -/
def KernBounded (f : ScaledFontM) : Prop :=
  ∀ p c : GlyphId, 0 ≤ f.h_advance p + f.kern p c

/-- The kerning shift of src/lib.rs:252-254: when a previous glyph exists,
`caret.x += font.kern(previous.id, glyph.id)`; the result is the caret x at
which the current glyph is placed. -/
def kernAdvance (font : ScaledFontM) (last_glyph : Option Glyph)
    (gid : GlyphId) (x : ℚ) : ℚ :=
  match last_glyph with
  | some previous => x + font.kern previous.id gid
  | none => x

/-- The loop body of `layout_paragraph` (src/lib.rs:243-266), written as
structural recursion over the character list.  State threaded through the
loop: the caret and the `last_glyph` kerning history.  Pushing into the
`target` vector becomes consing onto the result list. -/
def layout_paragraph_aux (font : ScaledFontM) (position : Pt) (max_width : ℚ)
    (v_advance : ℚ) (caret : Pt) (last_glyph : Option Glyph) :
    List Char → List Glyph
  | [] => []
  | c :: cs =>
    if isControl c then
      if c = '\n' then
        layout_paragraph_aux font position max_width v_advance
          ⟨position.x, caret.y + v_advance⟩ none cs
      else
        layout_paragraph_aux font position max_width v_advance caret last_glyph cs
    else
      let gid := font.glyph_id c
      let kx : ℚ := kernAdvance font last_glyph gid caret.x
      let glyph : Glyph := ⟨gid, ⟨kx, caret.y⟩⟩
      let ax : ℚ := kx + font.h_advance gid
      if isWhitespace c = false ∧ position.x + max_width < ax then
        glyph :: layout_paragraph_aux font position max_width v_advance
          ⟨position.x, caret.y + v_advance⟩ none cs
      else
        glyph :: layout_paragraph_aux font position max_width v_advance
          ⟨ax, caret.y⟩ (some glyph) cs

/-- Unfolding the loop at a newline (src/lib.rs:244-249): no glyph, caret x
reset to the anchor, caret y advanced, kerning history cleared. -/
theorem layout_aux_cons_newline (font : ScaledFontM) (position : Pt)
    (max_width v_advance : ℚ) (caret : Pt) (last_glyph : Option Glyph)
    (cs : List Char) :
    layout_paragraph_aux font position max_width v_advance caret last_glyph
        ('\n' :: cs) =
      layout_paragraph_aux font position max_width v_advance
        ⟨position.x, caret.y + v_advance⟩ none cs := by
  have h1 : isControl '\n' = true := rfl
  rw [layout_paragraph_aux, if_pos h1, if_pos (rfl : '\n' = '\n')]

/-- Unfolding the loop at a non-newline control character
(src/lib.rs:244-249): skipped, nothing changes. -/
theorem layout_aux_cons_control (font : ScaledFontM) (position : Pt)
    (max_width v_advance : ℚ) (caret : Pt) (last_glyph : Option Glyph)
    (c : Char) (cs : List Char) (hc : isControl c = true) (hn : c ≠ '\n') :
    layout_paragraph_aux font position max_width v_advance caret last_glyph
        (c :: cs) =
      layout_paragraph_aux font position max_width v_advance caret last_glyph
        cs := by
  rw [layout_paragraph_aux, if_pos hc, if_neg hn]

/-- Unfolding the loop at a non-control character (src/lib.rs:251-265):
kern-shift, place the glyph, advance, then the wrap check. -/
theorem layout_aux_cons_visible (font : ScaledFontM) (position : Pt)
    (max_width v_advance : ℚ) (caret : Pt) (last_glyph : Option Glyph)
    (c : Char) (cs : List Char) (hc : isControl c = false) :
    layout_paragraph_aux font position max_width v_advance caret last_glyph
        (c :: cs) =
      (if isWhitespace c = false ∧
          position.x + max_width <
            kernAdvance font last_glyph (font.glyph_id c) caret.x +
              font.h_advance (font.glyph_id c) then
        ⟨font.glyph_id c,
          ⟨kernAdvance font last_glyph (font.glyph_id c) caret.x, caret.y⟩⟩ ::
          layout_paragraph_aux font position max_width v_advance
            ⟨position.x, caret.y + v_advance⟩ none cs
      else
        ⟨font.glyph_id c,
          ⟨kernAdvance font last_glyph (font.glyph_id c) caret.x, caret.y⟩⟩ ::
          layout_paragraph_aux font position max_width v_advance
            ⟨kernAdvance font last_glyph (font.glyph_id c) caret.x +
              font.h_advance (font.glyph_id c), caret.y⟩
            (some ⟨font.glyph_id c,
              ⟨kernAdvance font last_glyph (font.glyph_id c) caret.x,
                caret.y⟩⟩) cs) := by
  rw [layout_paragraph_aux, if_neg (by simp [hc])]

/-- `layout_paragraph` (src/lib.rs:230-267): caret starts at
`(position.x, position.y + ascent)`, the vertical line advance is
`height() + line_gap()`. -/
def layout_paragraph (font : ScaledFontM) (position : Pt) (max_width : ℚ)
    (text : List Char) : List Glyph :=
  layout_paragraph_aux font position max_width (font.height + font.line_gap)
    ⟨position.x, position.y + font.ascent⟩ none text

/-- One RGBA pixel (`image::Rgba<u8>`); channels are `u8` values held as
`Nat` (writes produced by the blend are always ≤ 255). -/
structure RgbaPx where
  r : Nat
  g : Nat
  b : Nat
  a : Nat
deriving DecidableEq, Repr

/-- `image::ImageBuffer<Rgba<u8>, Vec<u8>>`: a width, a height and a
row-major pixel vector of length `width * height`. -/
structure Canvas where
  width : Nat
  height : Nat
  pix : List RgbaPx
deriving DecidableEq, Repr

/-- Well-formedness of the pixel vector backing an `ImageBuffer`. -/
def Canvas.Wf (c : Canvas) : Prop :=
  c.pix.length = c.width * c.height

/-- Read the pixel at `(x, y)` (row-major, as `ImageBuffer` stores it). -/
def Canvas.getPixel (c : Canvas) (x y : Nat) : RgbaPx :=
  c.pix.getD (y * c.width + x) ⟨0, 0, 0, 0⟩

/-- Overwrite the pixel at `(x, y)`. -/
def Canvas.setPixel (c : Canvas) (x y : Nat) (p : RgbaPx) : Canvas :=
  { c with pix := c.pix.set (y * c.width + x) p }

/-- Rust `as u8` applied to a non-negative `f32` blend result: truncate
toward zero and saturate to 255 (negative inputs saturate to 0). -/
def ratToU8 (q : ℚ) : Nat :=
  if q < 0 then 0 else min 255 ⌊q⌋.toNat

/-- Rust `as u32` applied to an `f32` bound coordinate: truncate toward
zero, saturating at 0 and at `u32::MAX`. -/
def ratToU32 (q : ℚ) : Nat :=
  if q < 0 then 0 else min (2 ^ 32 - 1) ⌊q⌋.toNat

/-- One channel of the Policy A blend in `render_glyphs`
(src/lib.rs:219-221): `(px as f32 * (1.0 - v) + color as f32 * v) as u8`. -/
def blendChannel (bg ch : Nat) (v : ℚ) : Nat :=
  ratToU8 ((bg : ℚ) * (1 - v) + (ch : ℚ) * v)

/-- The full pixel write of the draw callback (src/lib.rs:218-223): blend
R, G, B with the destination, force alpha to 255. -/
def blendPixel (px : RgbaPx) (color : Nat × Nat × Nat) (v : ℚ) : RgbaPx :=
  ⟨blendChannel px.r color.1 v,
   blendChannel px.g color.2.1 v,
   blendChannel px.b color.2.2 v,
   255⟩

/-- One invocation of the draw callback at absolute canvas coordinates
`(w.1, w.2.1)` with coverage `w.2.2`.  `get_pixel_mut` panics when the
coordinates are out of bounds; the panic is embedded as `Except.error`. -/
def drawPixel (color : Nat × Nat × Nat) (c : Canvas) (w : Nat × Nat × ℚ) :
    Except String Canvas :=
  if w.1 < c.width ∧ w.2.1 < c.height then
    .ok (c.setPixel w.1 w.2.1 (blendPixel (c.getPixel w.1 w.2.1) color w.2.2))
  else
    .error "image index out of bounds"

/-- Run a sequence of draw-callback invocations left to right, stopping at
the first panic. -/
def applyWrites (color : Nat × Nat × Nat) (c : Canvas) :
    List (Nat × Nat × ℚ) → Except String Canvas
  | [] => .ok c
  | w :: ws =>
    match drawPixel color c w with
    | .ok c2 => applyWrites color c2 ws
    | .error e => .error e

/-- The outline of one glyph as `render_glyphs` consumes it: the pixel
bounding box minimum (`outlined.px_bounds().min`) and the list of
`(x, y, coverage)` triples the `outlined.draw` callback visits, in visit
order.  Produced by the external rasterizer, so held as oracle data. -/
structure Outline where
  min_x : ℚ
  min_y : ℚ
  pixels : List (Nat × Nat × ℚ)
deriving DecidableEq, Repr

/-- The absolute-coordinate writes of one outline: the callback receives
local `(x, y)` and writes at
`(x + bounds.min.x as u32, y + bounds.min.y as u32)` (src/lib.rs:217). -/
def Outline.writes (o : Outline) : List (Nat × Nat × ℚ) :=
  o.pixels.map (fun p => (p.1 + ratToU32 o.min_x, p.2.1 + ratToU32 o.min_y, p.2.2))

/-- `render_glyphs` (src/lib.rs:207-228): for each glyph in order, if the
font yields an outline, run its draw callback over the canvas; glyphs
without an outline are skipped. -/
def render_glyphs (outline_glyph : Glyph → Option Outline) (glyphs : List Glyph)
    (imgbuf : Canvas) (text_color : Nat × Nat × Nat) : Except String Canvas :=
  match glyphs with
  | [] => .ok imgbuf
  | g :: gs =>
    match outline_glyph g with
    | none => render_glyphs outline_glyph gs imgbuf text_color
    | some o =>
      match applyWrites text_color imgbuf o.writes with
      | .ok c2 => render_glyphs outline_glyph gs c2 text_color
      | .error e => .error e

/-- All draw-callback invocations of a glyph list, flattened in order. -/
def glyphWrites (outline_glyph : Glyph → Option Outline) :
    List Glyph → List (Nat × Nat × ℚ)
  | [] => []
  | g :: gs =>
    (match outline_glyph g with
     | none => []
     | some o => o.writes) ++ glyphWrites outline_glyph gs

/-- A parsed font at one pixel scale, as a `render_text` call uses it: the
scaled metrics view plus the outline oracle. -/
structure FontM where
  scaled : ScaledFontM
  outline_glyph : Glyph → Option Outline

/-- `render_text` (src/lib.rs:185-205): lay the text out bounded by
`IMAGE_WIDTH as f32 - 180.0` and composite the glyphs. -/
def render_text (font : FontM) (imgbuf : Canvas) (text : List Char)
    (text_color : Nat × Nat × Nat) (text_position : Pt) : Except String Canvas :=
  render_glyphs font.outline_glyph
    (layout_paragraph font.scaled text_position ((1200 : ℚ) - 180) text)
    imgbuf text_color

/-- The `text` query-parameter handling of `main` (src/lib.rs:54-64):
a missing parameter is a 400 error, and `text.len() > 150` — Rust's
`str::len`, i.e. the UTF-8 byte length — is a 400 error. -/
def text_param_check (text : Option String) : Except (String × Nat) String :=
  match text with
  | some text =>
    if text.utf8ByteSize > 150 then .error ("text parameter is too long", 400)
    else .ok text
  | none => .error ("text parameter is required", 400)

/-- The stage order of `main`: the `text` check (src/lib.rs:54-64) runs
before the font is fetched and parsed (src/lib.rs:78-106), so a failed
check returns its error without consulting the font loader. -/
def main_text_stage (text : Option String)
    (load_font : Unit → Except (String × Nat) FontM) :
    Except (String × Nat) FontM :=
  match text_param_check text with
  | .error e => .error e
  | .ok _ => load_font ()

end Ogpgen

/-! ### Layout lemmas -/

namespace Ogpgen

/-- Every glyph list produced by the layout loop has one entry per
non-control input character, in input order, carrying that character's
glyph id — regardless of the starting caret and kerning history. -/
theorem layout_aux_map_id (font : ScaledFontM) (position : Pt)
    (max_width v_advance : ℚ) :
    ∀ (text : List Char) (caret : Pt) (last_glyph : Option Glyph),
      (layout_paragraph_aux font position max_width v_advance caret last_glyph
          text).map Glyph.id =
        (text.filter (fun c => !isControl c)).map font.glyph_id := by
  intro text
  induction text with
  | nil => intro caret last_glyph; rfl
  | cons c cs ih =>
    intro caret last_glyph
    by_cases hc : isControl c
    · by_cases hn : c = '\n'
      · subst hn; simp [layout_paragraph_aux, hc, ih]
      · simp [layout_paragraph_aux, hc, hn, ih]
    · simp only [layout_paragraph_aux, Bool.not_eq_true] at hc ⊢
      rw [if_neg (by simp [hc])]
      by_cases hw : isWhitespace c = false ∧
          position.x + max_width <
            kernAdvance font last_glyph (font.glyph_id c) caret.x +
              font.h_advance (font.glyph_id c)
      · rw [if_pos hw]; simp [hc, ih]
      · rw [if_neg hw]; simp [hc, ih]

/-- Pen-monotonicity invariant of the layout loop: if the vertical advance,
all horizontal advances, and all advance-plus-kern sums are non-negative,
and the caret starts at or right of `position.x` (and, when a kerning
predecessor exists, at least its advance past `position.x`) and at or below
`position.y`, then every emitted glyph lies at or right of `position.x` and
at or below `position.y`. -/
theorem layout_aux_ge_anchor (font : ScaledFontM) (position : Pt)
    (max_width v_advance : ℚ)
    (hva : 0 ≤ v_advance)
    (hadv : ∀ g, 0 ≤ font.h_advance g)
    (hkern : ∀ p c, 0 ≤ font.h_advance p + font.kern p c) :
    ∀ (text : List Char) (caret : Pt) (last_glyph : Option Glyph),
      position.x ≤ caret.x →
      (∀ prev, last_glyph = some prev →
        position.x + font.h_advance prev.id ≤ caret.x) →
      position.y ≤ caret.y →
      ∀ g ∈ layout_paragraph_aux font position max_width v_advance caret
          last_glyph text,
        position.x ≤ g.position.x ∧ position.y ≤ g.position.y := by
  intro text
  induction text with
  | nil => intro caret last_glyph _ _ _ g hg; simp [layout_paragraph_aux] at hg
  | cons c cs ih =>
    intro caret last_glyph hx hlast hy g hg
    by_cases hc : isControl c
    · rw [layout_paragraph_aux, if_pos hc] at hg
      by_cases hn : c = '\n'
      · rw [if_pos hn] at hg
        exact ih ⟨position.x, caret.y + v_advance⟩ none le_rfl
          (fun prev h => by cases h)
          (le_trans hy (by simp only; linarith)) g hg
      · rw [if_neg hn] at hg
        exact ih caret last_glyph hx hlast hy g hg
    · have hkx : position.x ≤
          kernAdvance font last_glyph (font.glyph_id c) caret.x := by
        cases hl : last_glyph with
        | none => simpa [kernAdvance] using hx
        | some prev =>
          have h1 := hlast prev hl
          have h2 := hkern prev.id (font.glyph_id c)
          simp only [kernAdvance]
          linarith
      rw [layout_paragraph_aux, if_neg hc] at hg
      simp only at hg
      by_cases hw : isWhitespace c = false ∧
          position.x + max_width <
            kernAdvance font last_glyph (font.glyph_id c) caret.x +
              font.h_advance (font.glyph_id c)
      · rw [if_pos hw] at hg
        rcases List.mem_cons.1 hg with hg | hg
        · subst hg; exact ⟨hkx, hy⟩
        · exact ih ⟨position.x, caret.y + v_advance⟩ none le_rfl
            (fun prev h => by cases h) (le_trans hy (by simp only; linarith)) g hg
      · rw [if_neg hw] at hg
        rcases List.mem_cons.1 hg with hg | hg
        · subst hg; exact ⟨hkx, hy⟩
        · exact ih
            ⟨kernAdvance font last_glyph (font.glyph_id c) caret.x +
              font.h_advance (font.glyph_id c), caret.y⟩
            (some ⟨font.glyph_id c,
              ⟨kernAdvance font last_glyph (font.glyph_id c) caret.x, caret.y⟩⟩)
            (by have := hadv (font.glyph_id c); simp only; linarith)
            (fun prev h => by
              injection h with h
              subst h
              simp only
              linarith)
            hy g hg

end Ogpgen

namespace Ogpgen

/-- The layout loop never reads the caret's y-coordinate except to stamp it
into glyph positions and to add the line advance: starting the loop `d`
lower (with any kerning history carrying the same glyph id) produces the
same glyphs shifted down by `d`. -/
theorem layout_aux_y_shift (font : ScaledFontM) (position : Pt)
    (max_width v_advance d : ℚ) :
    ∀ (text : List Char) (caret : Pt) (last1 last2 : Option Glyph),
      last1.map Glyph.id = last2.map Glyph.id →
      layout_paragraph_aux font position max_width v_advance
          ⟨caret.x, caret.y + d⟩ last1 text =
        (layout_paragraph_aux font position max_width v_advance caret last2
            text).map (fun g => ⟨g.id, ⟨g.position.x, g.position.y + d⟩⟩) := by
  intro text
  induction text with
  | nil => intro caret last1 last2 _; rfl
  | cons c cs ih =>
    intro caret last1 last2 hlast
    have hk : kernAdvance font last1 (font.glyph_id c) caret.x =
        kernAdvance font last2 (font.glyph_id c) caret.x := by
      cases last1 with
      | none =>
        cases last2 with
        | none => rfl
        | some p => simp at hlast
      | some p =>
        cases last2 with
        | none => simp at hlast
        | some q =>
          simp only [Option.map_some', Option.some.injEq] at hlast
          simp [kernAdvance, hlast]
    by_cases hc : isControl c
    · by_cases hn : c = '\n'
      · subst hn
        rw [layout_aux_cons_newline, layout_aux_cons_newline]
        simp only
        rw [show caret.y + d + v_advance = caret.y + v_advance + d by ring]
        exact ih ⟨position.x, caret.y + v_advance⟩ none none rfl
      · rw [layout_aux_cons_control _ _ _ _ _ _ _ _ hc hn,
          layout_aux_cons_control _ _ _ _ _ _ _ _ hc hn]
        exact ih caret last1 last2 hlast
    · rw [Bool.not_eq_true] at hc
      rw [layout_aux_cons_visible _ _ _ _ _ _ _ _ hc,
        layout_aux_cons_visible _ _ _ _ _ _ _ _ hc]
      simp only [hk]
      by_cases hw : isWhitespace c = false ∧
          position.x + max_width <
            kernAdvance font last2 (font.glyph_id c) caret.x +
              font.h_advance (font.glyph_id c)
      · rw [if_pos hw, if_pos hw]
        simp only [List.map_cons]
        congr 1
        rw [show caret.y + d + v_advance = caret.y + v_advance + d by ring]
        exact ih ⟨position.x, caret.y + v_advance⟩ none none rfl
      · rw [if_neg hw, if_neg hw]
        simp only [List.map_cons]
        congr 1
        exact ih
          ⟨kernAdvance font last2 (font.glyph_id c) caret.x +
            font.h_advance (font.glyph_id c), caret.y⟩
          (some ⟨font.glyph_id c,
            ⟨kernAdvance font last2 (font.glyph_id c) caret.x, caret.y + d⟩⟩)
          (some ⟨font.glyph_id c,
            ⟨kernAdvance font last2 (font.glyph_id c) caret.x, caret.y⟩⟩)
          (by simp)

end Ogpgen

/-! ### Claim theorems: layout -/

namespace Ogpgen

/-- A minimal concrete scaled font used by witnesses: zero vertical metrics,
advance 10 for every glyph, no kerning. -/
def simpleFont : ScaledFontM :=
  { ascent := 0, height := 0, line_gap := 0,
    glyph_id := fun c => ⟨c.toNat⟩,
    h_advance := fun _ => 10,
    kern := fun _ _ => 0 }

/-- A concrete scaled font with §4.1-valid metrics but a strongly negative
kerning table: advance 1, kerning -5 for every pair. -/
def negKernFont : ScaledFontM :=
  { ascent := 0, height := 0, line_gap := 0,
    glyph_id := fun c => ⟨c.toNat⟩,
    h_advance := fun _ => 1,
    kern := fun _ _ => -5 }

/-- C1: after placing a glyph and advancing the pen by its horizontal
advance, if the character is not whitespace and the pen x exceeds
`anchor.x + maxLineWidth`, the pen wraps — x resets to `anchor.x`, y
advances by the line advance, and the kerning history (`last_glyph`) is
cleared; the continuation depends only on the remaining characters `cs`, so
no word-boundary lookahead occurs and the wrap can fall mid-word. -/
theorem layout_wrap_after_advance (font : ScaledFontM) (position : Pt)
    (max_width v_advance : ℚ) (caret : Pt) (last_glyph : Option Glyph)
    (c : Char) (cs : List Char)
    (hctl : isControl c = false) (hws : isWhitespace c = false)
    (hover : position.x + max_width <
      kernAdvance font last_glyph (font.glyph_id c) caret.x +
        font.h_advance (font.glyph_id c)) :
    layout_paragraph_aux font position max_width v_advance caret last_glyph
        (c :: cs) =
      ⟨font.glyph_id c,
        ⟨kernAdvance font last_glyph (font.glyph_id c) caret.x, caret.y⟩⟩ ::
        layout_paragraph_aux font position max_width v_advance
          ⟨position.x, caret.y + v_advance⟩ none cs := by
  rw [layout_aux_cons_visible _ _ _ _ _ _ _ _ hctl, if_pos ⟨hws, hover⟩]

/-- Witness for C1: with advance 10 and no kerning, the letter `a` placed
at pen x 0 against `maxLineWidth` 5 overflows and wraps even though the
next character `b` is a letter (a mid-word wrap). -/
theorem layout_wrap_after_advance_witness :
    isControl 'a' = false ∧ isWhitespace 'a' = false ∧
    ((0 : ℚ) + 5 < kernAdvance simpleFont none (simpleFont.glyph_id 'a') 0 +
      simpleFont.h_advance (simpleFont.glyph_id 'a')) ∧
    layout_paragraph_aux simpleFont ⟨0, 0⟩ 5 7 ⟨0, 0⟩ none ['a', 'b'] =
      ⟨simpleFont.glyph_id 'a', ⟨0, 0⟩⟩ ::
        layout_paragraph_aux simpleFont ⟨0, 0⟩ 5 7 ⟨0, 0 + 7⟩ none ['b'] :=
  ⟨rfl, rfl, by norm_num [kernAdvance, simpleFont],
    layout_wrap_after_advance simpleFont ⟨0, 0⟩ 5 7 ⟨0, 0⟩ none 'a' ['b']
      rfl rfl (by norm_num [kernAdvance, simpleFont])⟩

/-- C10: when the wrap fires, the glyph that triggered it is still emitted
at the position assigned before the wrap — kern-shifted x and the old
line's y — while only the pen handed to the remaining characters moves to
`(anchor.x, y + line advance)`; glyphs already emitted are untouched. -/
theorem wrap_moves_pen_not_glyph (font : ScaledFontM) (position : Pt)
    (max_width v_advance : ℚ) (caret : Pt) (last_glyph : Option Glyph)
    (c : Char) (cs : List Char)
    (hctl : isControl c = false) (hws : isWhitespace c = false)
    (hover : position.x + max_width <
      kernAdvance font last_glyph (font.glyph_id c) caret.x +
        font.h_advance (font.glyph_id c)) :
    (layout_paragraph_aux font position max_width v_advance caret last_glyph
        (c :: cs)).head? =
      some ⟨font.glyph_id c,
        ⟨kernAdvance font last_glyph (font.glyph_id c) caret.x, caret.y⟩⟩ ∧
    (layout_paragraph_aux font position max_width v_advance caret last_glyph
        (c :: cs)).tail =
      layout_paragraph_aux font position max_width v_advance
        ⟨position.x, caret.y + v_advance⟩ none cs := by
  rw [layout_aux_cons_visible _ _ _ _ _ _ _ _ hctl, if_pos ⟨hws, hover⟩]
  exact ⟨rfl, rfl⟩

/-- Witness for C10: the wrapping glyph `b` keeps its pre-wrap position
(2, 3) — the old line's y — while the pen for the rest moves to (0, 3+5). -/
theorem wrap_moves_pen_not_glyph_witness :
    isControl 'b' = false ∧ isWhitespace 'b' = false ∧
    ((0 : ℚ) + 8 < kernAdvance simpleFont none (simpleFont.glyph_id 'b') 2 +
      simpleFont.h_advance (simpleFont.glyph_id 'b')) ∧
    ((layout_paragraph_aux simpleFont ⟨0, 0⟩ 8 5 ⟨2, 3⟩ none ['b', 'c']).head? =
        some ⟨simpleFont.glyph_id 'b', ⟨2, 3⟩⟩ ∧
      (layout_paragraph_aux simpleFont ⟨0, 0⟩ 8 5 ⟨2, 3⟩ none ['b', 'c']).tail =
        layout_paragraph_aux simpleFont ⟨0, 0⟩ 8 5 ⟨0, 3 + 5⟩ none ['c']) :=
  ⟨rfl, rfl, by norm_num [kernAdvance, simpleFont],
    wrap_moves_pen_not_glyph simpleFont ⟨0, 0⟩ 8 5 ⟨2, 3⟩ none 'b' ['c']
      rfl rfl (by norm_num [kernAdvance, simpleFont])⟩

/-- C7: a newline emits no glyph, resets the pen x to the anchor, clears
the kerning history, and every glyph emitted for the remaining characters
sits exactly one line advance (`height + line_gap`) below where the same
layout would have placed it at the current y. -/
theorem layout_newline_zero_glyphs_line_advance (font : ScaledFontM)
    (position : Pt) (max_width : ℚ) (caret : Pt) (last_glyph : Option Glyph)
    (rest : List Char) :
    layout_paragraph_aux font position max_width
        (font.height + font.line_gap) caret last_glyph ('\n' :: rest) =
      (layout_paragraph_aux font position max_width
          (font.height + font.line_gap) ⟨position.x, caret.y⟩ none rest).map
        (fun g => ⟨g.id,
          ⟨g.position.x, g.position.y + (font.height + font.line_gap)⟩⟩) := by
  rw [layout_aux_cons_newline]
  exact layout_aux_y_shift font position max_width _ _ rest
    ⟨position.x, caret.y⟩ none none rfl

/-- C6 (amended): for a §4.1-valid font whose kerning never outweighs the
preceding advance, layout of whitespace-free, newline-free ASCII text emits
exactly one glyph per non-control character in input order, each at or
right of `anchor.x` and at or below `anchor.y`. -/
theorem layout_one_glyph_per_visible_char (font : ScaledFontM) (position : Pt)
    (max_width : ℚ) (text : List Char)
    (hfont : ValidFont font) (hkern : KernBounded font)
    (htext : ∀ c ∈ text, c.toNat < 128 ∧ isWhitespace c = false ∧ c ≠ '\n') :
    (layout_paragraph font position max_width text).map Glyph.id =
      (text.filter (fun c => !isControl c)).map font.glyph_id ∧
    ∀ g ∈ layout_paragraph font position max_width text,
      position.x ≤ g.position.x ∧ position.y ≤ g.position.y := by
  obtain ⟨ha, hh, hl, hadv⟩ := hfont
  refine ⟨layout_aux_map_id font position max_width _ text _ none, ?_⟩
  exact layout_aux_ge_anchor font position max_width
    (font.height + font.line_gap) (by linarith) hadv hkern text
    ⟨position.x, position.y + font.ascent⟩ none le_rfl
    (fun prev h => by cases h) (by simp only; linarith)

/-- Witness for C6: one letter laid out from anchor (3, 4) with the simple
font produces exactly its glyph, at or below-right of the anchor. -/
theorem layout_one_glyph_per_visible_char_witness :
    ValidFont simpleFont ∧ KernBounded simpleFont ∧
    (∀ c ∈ ['a'], c.toNat < 128 ∧ isWhitespace c = false ∧ c ≠ '\n') ∧
    ((layout_paragraph simpleFont ⟨3, 4⟩ 100 ['a']).map Glyph.id =
        (['a'].filter (fun c => !isControl c)).map simpleFont.glyph_id ∧
      ∀ g ∈ layout_paragraph simpleFont ⟨3, 4⟩ 100 ['a'],
        (3 : ℚ) ≤ g.position.x ∧ (4 : ℚ) ≤ g.position.y) :=
  ⟨⟨le_rfl, le_rfl, le_rfl, fun _ => by norm_num [simpleFont]⟩,
    fun p c => by norm_num [simpleFont],
    by decide,
    layout_one_glyph_per_visible_char simpleFont ⟨3, 4⟩ 100 ['a']
      ⟨le_rfl, le_rfl, le_rfl, fun _ => by norm_num [simpleFont]⟩
      (fun p c => by norm_num [simpleFont]) (by decide)⟩

/-- Counterexample to C6 as stated: a font meeting the §4.1 validity
contract (non-negative metrics and advances, signed kerning) with kerning
-5 against advance 1 places the second glyph of `ab` at x = -4, left of the
anchor, so "every produced glyph's position satisfies x ≥ anchor.x" fails
for valid fonts in general. -/
theorem layout_ge_anchor_cex :
    ValidFont negKernFont ∧
    (∀ c ∈ ['a', 'b'], c.toNat < 128 ∧ isWhitespace c = false ∧ c ≠ '\n') ∧
    ¬ (∀ g ∈ layout_paragraph negKernFont ⟨0, 0⟩ 100 ['a', 'b'],
        (0 : ℚ) ≤ g.position.x ∧ (0 : ℚ) ≤ g.position.y) := by
  refine ⟨⟨le_rfl, le_rfl, le_rfl, fun _ => by norm_num [negKernFont]⟩,
    by decide, ?_⟩
  intro h
  have heval : layout_paragraph negKernFont ⟨0, 0⟩ 100 ['a', 'b'] =
      [⟨⟨97⟩, ⟨0, 0⟩⟩, ⟨⟨98⟩, ⟨-4, 0⟩⟩] := by
    norm_num [layout_paragraph, layout_paragraph_aux, kernAdvance, isControl,
      isWhitespace, whitespaceCodes, negKernFont,
      show 'a'.toNat = 97 from rfl, show 'b'.toNat = 98 from rfl]
  rw [heval] at h
  have h2 := h ⟨⟨98⟩, ⟨-4, 0⟩⟩ (by simp)
  norm_num at h2

end Ogpgen

/-! ### Compositor lemmas -/

namespace Ogpgen

/-- The pixel value any fully-covered (`v = 1`) write stores: the text
color, quantized, with alpha 255. -/
def colorPx (color : Nat × Nat × Nat) : RgbaPx :=
  ⟨ratToU8 color.1, ratToU8 color.2.1, ratToU8 color.2.2, 255⟩

theorem ratToU8_le_255 (q : ℚ) : ratToU8 q ≤ 255 := by
  unfold ratToU8
  split
  · exact Nat.zero_le 255
  · exact Nat.min_le_left 255 _

theorem ratToU8_natCast (n : Nat) (h : n ≤ 255) : ratToU8 (n : ℚ) = n := by
  unfold ratToU8
  rw [if_neg (not_lt.mpr (by positivity)), Int.floor_natCast]
  simp [h]

theorem ratToU8_idem (q : ℚ) : ratToU8 ((ratToU8 q : Nat) : ℚ) = ratToU8 q :=
  ratToU8_natCast _ (ratToU8_le_255 q)

theorem blendPixel_one (px : RgbaPx) (color : Nat × Nat × Nat) :
    blendPixel px color 1 = colorPx color := by
  unfold blendPixel blendChannel colorPx
  norm_num

theorem blendPixel_zero (px : RgbaPx) (color : Nat × Nat × Nat) :
    blendPixel px color 0 = ⟨ratToU8 px.r, ratToU8 px.g, ratToU8 px.b, 255⟩ := by
  unfold blendPixel blendChannel
  norm_num

theorem blendPixel_bounds (px : RgbaPx) (color : Nat × Nat × Nat) (v : ℚ) :
    (blendPixel px color v).r ≤ 255 ∧ (blendPixel px color v).g ≤ 255 ∧
    (blendPixel px color v).b ≤ 255 ∧ (blendPixel px color v).a = 255 :=
  ⟨ratToU8_le_255 _, ratToU8_le_255 _, ratToU8_le_255 _, rfl⟩

theorem rowMajor_lt (x y w h : Nat) (hx : x < w) (hy : y < h) :
    y * w + x < w * h := by
  have h1 : y * w + x < (y + 1) * w := by
    rw [Nat.succ_mul]
    omega
  have h2 : (y + 1) * w ≤ h * w := Nat.mul_le_mul_right w hy
  calc y * w + x < (y + 1) * w := h1
    _ ≤ h * w := h2
    _ = w * h := Nat.mul_comm h w

theorem rowMajor_inj (x x' y y' w : Nat) (hx : x < w) (hx' : x' < w)
    (h : y * w + x = y' * w + x') : x = x' ∧ y = y' := by
  have hw : 0 < w := Nat.pos_of_ne_zero (by omega)
  have h1 : (y * w + x) % w = x % w := by
    rw [Nat.add_comm, Nat.add_mul_mod_self_right]
  have h2 : (y' * w + x') % w = x' % w := by
    rw [Nat.add_comm, Nat.add_mul_mod_self_right]
  have hxx : x = x' := by
    rw [← Nat.mod_eq_of_lt hx, ← Nat.mod_eq_of_lt hx', ← h1, ← h2, h]
  subst hxx
  have : y * w = y' * w := by omega
  exact ⟨rfl, Nat.eq_of_mul_eq_mul_right hw this⟩

theorem getPixel_setPixel_same (c : Canvas) (x y : Nat) (p : RgbaPx)
    (hwf : c.Wf) (hx : x < c.width) (hy : y < c.height) :
    (c.setPixel x y p).getPixel x y = p := by
  unfold Canvas.setPixel Canvas.getPixel
  rw [List.getD_eq_getElem?_getD,
    List.getElem?_set_self (by rw [hwf]; exact rowMajor_lt x y _ _ hx hy)]
  rfl

theorem getPixel_setPixel_ne (c : Canvas) (x y x' y' : Nat) (p : RgbaPx)
    (hx : x < c.width) (hx' : x' < c.width)
    (hne : (x', y') ≠ (x, y)) :
    (c.setPixel x y p).getPixel x' y' = c.getPixel x' y' := by
  unfold Canvas.setPixel Canvas.getPixel
  rw [List.getD_eq_getElem?_getD, List.getD_eq_getElem?_getD,
    List.getElem?_set_ne]
  intro h
  rcases rowMajor_inj x x' y y' c.width hx hx' h with ⟨h1, h2⟩
  exact hne (by rw [h1, h2])

theorem setPixel_getPixel_self (c : Canvas) (x y : Nat)
    (hwf : c.Wf) (hx : x < c.width) (hy : y < c.height) :
    c.setPixel x y (c.getPixel x y) = c := by
  have hlt : y * c.width + x < c.pix.length := by
    rw [hwf]; exact rowMajor_lt x y _ _ hx hy
  show Canvas.mk c.width c.height (c.pix.set (y * c.width + x)
    (c.getPixel x y)) = c
  have hpix : c.pix.set (y * c.width + x) (c.getPixel x y) = c.pix := by
    apply List.ext_getElem?
    intro j
    by_cases hj : y * c.width + x = j
    · subst hj
      rw [List.getElem?_set_self hlt, Canvas.getPixel,
        List.getD_eq_getElem?_getD, List.getElem?_eq_getElem hlt]
      rfl
    · exact List.getElem?_set_ne hj
  rw [hpix]

end Ogpgen

namespace Ogpgen

theorem drawPixel_ok_inv {color : Nat × Nat × Nat} {c c' : Canvas}
    {w : Nat × Nat × ℚ} (h : drawPixel color c w = .ok c') :
    (w.1 < c.width ∧ w.2.1 < c.height) ∧
      c' = c.setPixel w.1 w.2.1
        (blendPixel (c.getPixel w.1 w.2.1) color w.2.2) := by
  unfold drawPixel at h
  split at h
  · rename_i hb
    injection h with h2
    exact ⟨hb, h2.symm⟩
  · cases h

theorem drawPixel_dims {color : Nat × Nat × Nat} {c c' : Canvas}
    {w : Nat × Nat × ℚ} (h : drawPixel color c w = .ok c') :
    c'.width = c.width ∧ c'.height = c.height ∧
      c'.pix.length = c.pix.length := by
  obtain ⟨_, rfl⟩ := drawPixel_ok_inv h
  exact ⟨rfl, rfl, List.length_set c.pix _ _⟩

theorem drawPixel_wf {color : Nat × Nat × Nat} {c c' : Canvas}
    {w : Nat × Nat × ℚ} (hwf : c.Wf) (h : drawPixel color c w = .ok c') :
    c'.Wf := by
  obtain ⟨h1, h2, h3⟩ := drawPixel_dims h
  unfold Canvas.Wf at hwf ⊢
  rw [h1, h2, h3, hwf]

theorem applyWrites_dims {color : Nat × Nat × Nat} :
    ∀ {ws : List (Nat × Nat × ℚ)} {c c' : Canvas},
      applyWrites color c ws = .ok c' →
      c'.width = c.width ∧ c'.height = c.height ∧
        c'.pix.length = c.pix.length := by
  intro ws
  induction ws with
  | nil =>
    intro c c' h
    rw [applyWrites] at h
    cases h
    exact ⟨rfl, rfl, rfl⟩
  | cons w rest ih =>
    intro c c' h
    rw [applyWrites] at h
    cases hd : drawPixel color c w with
    | ok c1 =>
      rw [hd] at h
      obtain ⟨d1, d2, d3⟩ := drawPixel_dims hd
      obtain ⟨e1, e2, e3⟩ := ih h
      exact ⟨e1.trans d1, e2.trans d2, e3.trans d3⟩
    | error e => rw [hd] at h; cases h

theorem applyWrites_wf {color : Nat × Nat × Nat} {ws : List (Nat × Nat × ℚ)}
    {c c' : Canvas} (hwf : c.Wf) (h : applyWrites color c ws = .ok c') :
    c'.Wf := by
  obtain ⟨h1, h2, h3⟩ := applyWrites_dims h
  unfold Canvas.Wf at hwf ⊢
  rw [h1, h2, h3, hwf]

theorem applyWrites_ok_bounds {color : Nat × Nat × Nat} :
    ∀ {ws : List (Nat × Nat × ℚ)} {c c' : Canvas},
      applyWrites color c ws = .ok c' →
      ∀ w ∈ ws, w.1 < c.width ∧ w.2.1 < c.height := by
  intro ws
  induction ws with
  | nil => intro c c' _ w hw; cases hw
  | cons w0 rest ih =>
    intro c c' h w hw
    rw [applyWrites] at h
    cases hd : drawPixel color c w0 with
    | ok c1 =>
      rw [hd] at h
      obtain ⟨d1, d2, _⟩ := drawPixel_dims hd
      rcases List.mem_cons.1 hw with rfl | hw
      · exact (drawPixel_ok_inv hd).1
      · obtain ⟨b1, b2⟩ := ih h w hw
        exact ⟨by rw [← d1]; exact b1, by rw [← d2]; exact b2⟩
    | error e => rw [hd] at h; cases h

theorem applyWrites_append (color : Nat × Nat × Nat) (c : Canvas)
    (l1 l2 : List (Nat × Nat × ℚ)) :
    applyWrites color c (l1 ++ l2) =
      match applyWrites color c l1 with
      | .ok c2 => applyWrites color c2 l2
      | .error e => .error e := by
  induction l1 generalizing c with
  | nil => rfl
  | cons w ws ih =>
    rw [List.cons_append, applyWrites, applyWrites]
    cases drawPixel color c w with
    | ok c2 => exact ih c2
    | error e => rfl

/-- `render_glyphs` is the single pass of all draw-callback invocations of
its glyph list, in order. -/
theorem render_glyphs_eq_applyWrites (og : Glyph → Option Outline)
    (gs : List Glyph) (c : Canvas) (color : Nat × Nat × Nat) :
    render_glyphs og gs c color = applyWrites color c (glyphWrites og gs) := by
  induction gs generalizing c with
  | nil => rfl
  | cons g rest ih =>
    rw [render_glyphs, glyphWrites, applyWrites_append]
    cases ho : og g with
    | none => exact ih c
    | some o =>
      simp only
      cases ha : applyWrites color c o.writes with
      | ok c2 => exact ih c2
      | error e => rfl

theorem glyphWrites_v01 (og : Glyph → Option Outline) (gs : List Glyph)
    (hv : ∀ g o, og g = some o → ∀ p ∈ o.pixels, p.2.2 = 0 ∨ p.2.2 = 1) :
    ∀ w ∈ glyphWrites og gs, w.2.2 = 0 ∨ w.2.2 = 1 := by
  induction gs with
  | nil => intro w hw; cases hw
  | cons g rest ih =>
    intro w hw
    rw [glyphWrites] at hw
    rcases List.mem_append.1 hw with hw | hw
    · cases ho : og g with
      | none => rw [ho] at hw; cases hw
      | some o =>
        rw [ho] at hw
        unfold Outline.writes at hw
        obtain ⟨p, hp, rfl⟩ := List.mem_map.1 hw
        exact hv g o ho p hp
    · exact ih w hw

end Ogpgen

namespace Ogpgen

/-- A canvas pixel is stable for a write `(x, y, v)` with `v ∈ (0, 1)`
excluded: for `v = 1` the pixel already holds the quantized text color with
alpha 255 (what the write would store); for `v = 0` its channels are
in u8 range and its alpha is already 255, so re-quantizing changes
nothing. -/
def stableAt (color : Nat × Nat × Nat) (c : Canvas) (w : Nat × Nat × ℚ) :
    Prop :=
  (w.2.2 = 1 → c.getPixel w.1 w.2.1 = colorPx color) ∧
  (w.2.2 = 0 →
    (c.getPixel w.1 w.2.1).r ≤ 255 ∧ (c.getPixel w.1 w.2.1).g ≤ 255 ∧
    (c.getPixel w.1 w.2.1).b ≤ 255 ∧ (c.getPixel w.1 w.2.1).a = 255)

theorem stableAt_after_write {color : Nat × Nat × Nat} {c c' : Canvas}
    {w : Nat × Nat × ℚ} (hwf : c.Wf)
    (h : drawPixel color c w = .ok c') : stableAt color c' w := by
  obtain ⟨⟨hx, hy⟩, rfl⟩ := drawPixel_ok_inv h
  rw [stableAt, getPixel_setPixel_same c w.1 w.2.1 _ hwf hx hy]
  constructor
  · intro h1; rw [h1, blendPixel_one]
  · intro h0
    rw [h0, blendPixel_zero]
    exact ⟨ratToU8_le_255 _, ratToU8_le_255 _, ratToU8_le_255 _, rfl⟩

theorem stableAt_preserved {color : Nat × Nat × Nat} {c c' : Canvas}
    {w w' : Nat × Nat × ℚ} (hv' : w'.2.2 = 0 ∨ w'.2.2 = 1)
    (hwf : c.Wf) (hst : stableAt color c w)
    (hxw : w.1 < c.width)
    (h : drawPixel color c w' = .ok c') : stableAt color c' w := by
  obtain ⟨⟨hx', hy'⟩, rfl⟩ := drawPixel_ok_inv h
  by_cases heq : (w.1, w.2.1) = (w'.1, w'.2.1)
  · injection heq with h1 h2
    rw [stableAt, h1, h2,
      getPixel_setPixel_same c w'.1 w'.2.1 _ hwf hx' hy']
    constructor
    · intro hv1
      have hold := hst.1 (by rw [← hv1])
      rw [h1, h2] at hold
      rcases hv' with h0 | hone
      · rw [h0, hold, blendPixel_zero]
        simp [colorPx, ratToU8_idem]
      · rw [hone, blendPixel_one]
    · intro _
      exact blendPixel_bounds _ _ _
  · rw [stableAt,
      getPixel_setPixel_ne c w'.1 w'.2.1 w.1 w.2.1 _ hx' hxw heq]
    exact hst

theorem applyWrites_preserves_stable {color : Nat × Nat × Nat} :
    ∀ {ws : List (Nat × Nat × ℚ)} {c c' : Canvas},
      (∀ w' ∈ ws, w'.2.2 = 0 ∨ w'.2.2 = 1) → c.Wf →
      applyWrites color c ws = .ok c' →
      ∀ {w : Nat × Nat × ℚ}, stableAt color c w → w.1 < c.width →
        stableAt color c' w := by
  intro ws
  induction ws with
  | nil =>
    intro c c' _ _ h w hst _
    rw [applyWrites] at h
    cases h
    exact hst
  | cons w0 rest ih =>
    intro c c' hv hwf h w hst hxw
    rw [applyWrites] at h
    cases hd : drawPixel color c w0 with
    | ok c1 =>
      rw [hd] at h
      obtain ⟨d1, _, _⟩ := drawPixel_dims hd
      exact ih (fun w' hw' => hv w' (List.mem_cons_of_mem _ hw'))
        (drawPixel_wf hwf hd) h
        (stableAt_preserved (hv w0 (List.mem_cons_self _ _)) hwf hst hxw hd)
        (by rw [d1]; exact hxw)
    | error e => rw [hd] at h; cases h

theorem applyWrites_all_stable {color : Nat × Nat × Nat} :
    ∀ {ws : List (Nat × Nat × ℚ)} {c c' : Canvas},
      (∀ w ∈ ws, w.2.2 = 0 ∨ w.2.2 = 1) → c.Wf →
      applyWrites color c ws = .ok c' →
      ∀ w ∈ ws, stableAt color c' w := by
  intro ws
  induction ws with
  | nil => intro c c' _ _ _ w hw; cases hw
  | cons w0 rest ih =>
    intro c c' hv hwf h w hw
    rw [applyWrites] at h
    cases hd : drawPixel color c w0 with
    | ok c1 =>
      rw [hd] at h
      obtain ⟨⟨hx0, _⟩, _⟩ := drawPixel_ok_inv hd
      obtain ⟨d1, _, _⟩ := drawPixel_dims hd
      rcases List.mem_cons.1 hw with rfl | hw
      · exact applyWrites_preserves_stable
          (fun w' hw' => hv w' (List.mem_cons_of_mem _ hw'))
          (drawPixel_wf hwf hd) h (stableAt_after_write hwf hd)
          (by rw [d1]; exact hx0)
      · exact ih (fun w' hw' => hv w' (List.mem_cons_of_mem _ hw'))
          (drawPixel_wf hwf hd) h w hw
    | error e => rw [hd] at h; cases h

theorem drawPixel_stable_id {color : Nat × Nat × Nat} {c : Canvas}
    {w : Nat × Nat × ℚ} (hwf : c.Wf) (hv : w.2.2 = 0 ∨ w.2.2 = 1)
    (hst : stableAt color c w) (hx : w.1 < c.width) (hy : w.2.1 < c.height) :
    drawPixel color c w = .ok c := by
  unfold drawPixel
  rw [if_pos ⟨hx, hy⟩]
  congr 1
  have hpx : blendPixel (c.getPixel w.1 w.2.1) color w.2.2 =
      c.getPixel w.1 w.2.1 := by
    rcases hv with h0 | h1
    · rw [h0, blendPixel_zero]
      obtain ⟨hr, hg, hb, ha⟩ := hst.2 h0
      conv_rhs => rw [show c.getPixel w.1 w.2.1 =
        ⟨(c.getPixel w.1 w.2.1).r, (c.getPixel w.1 w.2.1).g,
         (c.getPixel w.1 w.2.1).b, (c.getPixel w.1 w.2.1).a⟩ from rfl]
      rw [ratToU8_natCast _ hr, ratToU8_natCast _ hg, ratToU8_natCast _ hb, ha]
    · rw [h1, blendPixel_one, hst.1 h1]
  rw [hpx]
  exact setPixel_getPixel_self c w.1 w.2.1 hwf hx hy

theorem applyWrites_id {color : Nat × Nat × Nat} :
    ∀ {ws : List (Nat × Nat × ℚ)} {c : Canvas}, c.Wf →
      (∀ w ∈ ws, (w.2.2 = 0 ∨ w.2.2 = 1) ∧ stableAt color c w ∧
        w.1 < c.width ∧ w.2.1 < c.height) →
      applyWrites color c ws = .ok c := by
  intro ws
  induction ws with
  | nil => intro c _ _; rfl
  | cons w0 rest ih =>
    intro c hwf hall
    obtain ⟨hv0, hst0, hx0, hy0⟩ := hall w0 (List.mem_cons_self _ _)
    rw [applyWrites, drawPixel_stable_id hwf hv0 hst0 hx0 hy0]
    exact ih hwf (fun w hw => hall w (List.mem_cons_of_mem _ hw))

end Ogpgen

/-! ### Claim theorems: compositing and request handling -/

namespace Ogpgen

/-- A concrete 1-by-1 opaque white canvas (one pixel of the `from_pixel`
background of src/lib.rs:108). -/
def white1 : Canvas := ⟨1, 1, [⟨255, 255, 255, 255⟩]⟩

/-- A concrete glyph fixture. -/
def g0 : Glyph := ⟨⟨0⟩, ⟨0, 0⟩⟩

/-- An outline whose draw callback visits one pixel with coverage 1/2. -/
def halfOutline : Outline := ⟨0, 0, [(0, 0, (1 : ℚ)/2)]⟩

/-- An outline whose draw callback visits one pixel with coverage 1. -/
def fullOutline : Outline := ⟨0, 0, [(0, 0, 1)]⟩

/-- An outline whose pixel bounding box starts at x = 5 — outside a
1-by-1 canvas. -/
def oobOutline : Outline := ⟨5, 0, [(0, 0, 1)]⟩

/-- C2: every pixel write of the compositor stores, for R, G and B, the
`u8` quantization of Policy A `background*(1-v) + text_color*v` computed
from the destination pixel at write time, and stores alpha 255 regardless
of the destination pixel's prior alpha (the blend never reads `px.a`). -/
theorem policy_a_pixel_write (c : Canvas) (color : Nat × Nat × Nat)
    (x y : Nat) (v : ℚ) (hx : x < c.width) (hy : y < c.height) :
    drawPixel color c (x, y, v) =
      .ok (c.setPixel x y (blendPixel (c.getPixel x y) color v)) ∧
    (blendPixel (c.getPixel x y) color v).r =
      ratToU8 (((c.getPixel x y).r : ℚ) * (1 - v) + (color.1 : ℚ) * v) ∧
    (blendPixel (c.getPixel x y) color v).g =
      ratToU8 (((c.getPixel x y).g : ℚ) * (1 - v) + (color.2.1 : ℚ) * v) ∧
    (blendPixel (c.getPixel x y) color v).b =
      ratToU8 (((c.getPixel x y).b : ℚ) * (1 - v) + (color.2.2 : ℚ) * v) ∧
    (blendPixel (c.getPixel x y) color v).a = 255 := by
  refine ⟨?_, rfl, rfl, rfl, rfl⟩
  simp [drawPixel, hx, hy]

/-- Witness for C2 at the half-covered pixel of a white 1-by-1 canvas. -/
theorem policy_a_pixel_write_witness :
    0 < white1.width ∧ 0 < white1.height ∧
    (drawPixel (0, 0, 0) white1 (0, 0, (1 : ℚ)/2) =
        .ok (white1.setPixel 0 0
          (blendPixel (white1.getPixel 0 0) (0, 0, 0) ((1 : ℚ)/2))) ∧
      (blendPixel (white1.getPixel 0 0) (0, 0, 0) ((1 : ℚ)/2)).r =
        ratToU8 (((white1.getPixel 0 0).r : ℚ) * (1 - (1 : ℚ)/2) +
          (((0, 0, 0) : Nat × Nat × Nat).1 : ℚ) * ((1 : ℚ)/2)) ∧
      (blendPixel (white1.getPixel 0 0) (0, 0, 0) ((1 : ℚ)/2)).g =
        ratToU8 (((white1.getPixel 0 0).g : ℚ) * (1 - (1 : ℚ)/2) +
          (((0, 0, 0) : Nat × Nat × Nat).2.1 : ℚ) * ((1 : ℚ)/2)) ∧
      (blendPixel (white1.getPixel 0 0) (0, 0, 0) ((1 : ℚ)/2)).b =
        ratToU8 (((white1.getPixel 0 0).b : ℚ) * (1 - (1 : ℚ)/2) +
          (((0, 0, 0) : Nat × Nat × Nat).2.2 : ℚ) * ((1 : ℚ)/2)) ∧
      (blendPixel (white1.getPixel 0 0) (0, 0, 0) ((1 : ℚ)/2)).a = 255) :=
  ⟨by decide, by decide,
    policy_a_pixel_write white1 (0, 0, 0) 0 0 ((1 : ℚ)/2)
      (by decide) (by decide)⟩

/-- C3 (amended): re-compositing the same glyph sequence with the same
color onto the canvas produced by the first compositing returns that canvas
bit-identically, provided every coverage value the outlines report is 0 or
1 (for fractional coverage the Policy A blend re-mixes the channel toward
the text color and the canvas changes; see the counterexample). -/
theorem policy_a_recomposite_idempotent (og : Glyph → Option Outline)
    (gs : List Glyph) (c c1 : Canvas) (color : Nat × Nat × Nat)
    (hwf : c.Wf)
    (hv : ∀ g o, og g = some o → ∀ p ∈ o.pixels, p.2.2 = 0 ∨ p.2.2 = 1)
    (h1 : render_glyphs og gs c color = .ok c1) :
    render_glyphs og gs c1 color = .ok c1 := by
  have hv' := glyphWrites_v01 og gs hv
  rw [render_glyphs_eq_applyWrites] at h1 ⊢
  have hb := applyWrites_ok_bounds h1
  have hdims := applyWrites_dims h1
  have hwf1 := applyWrites_wf hwf h1
  have hst := applyWrites_all_stable hv' hwf h1
  exact applyWrites_id hwf1 (fun w hw =>
    ⟨hv' w hw, hst w hw,
     by rw [hdims.1]; exact (hb w hw).1,
     by rw [hdims.2.1]; exact (hb w hw).2⟩)

/-- Witness for C3: black at full coverage over a white pixel turns it
black once, and compositing again leaves it black. -/
theorem policy_a_recomposite_idempotent_witness :
    white1.Wf ∧
    (∀ g o, (fun _ : Glyph => some fullOutline) g = some o →
      ∀ p ∈ o.pixels, p.2.2 = 0 ∨ p.2.2 = 1) ∧
    render_glyphs (fun _ => some fullOutline) [g0] white1 (0, 0, 0) =
      .ok ⟨1, 1, [⟨0, 0, 0, 255⟩]⟩ ∧
    render_glyphs (fun _ => some fullOutline) [g0]
        ⟨1, 1, [⟨0, 0, 0, 255⟩]⟩ (0, 0, 0) =
      .ok ⟨1, 1, [⟨0, 0, 0, 255⟩]⟩ := by
  have hwf : white1.Wf := rfl
  have hv : ∀ g o, (fun _ : Glyph => some fullOutline) g = some o →
      ∀ p ∈ o.pixels, p.2.2 = 0 ∨ p.2.2 = 1 := by
    intro g o ho p hp
    injection ho with ho2
    subst ho2
    simp only [fullOutline, List.mem_singleton] at hp
    subst hp
    norm_num
  have h1 : render_glyphs (fun _ => some fullOutline) [g0] white1 (0, 0, 0) =
      .ok ⟨1, 1, [⟨0, 0, 0, 255⟩]⟩ := by
    norm_num [render_glyphs, applyWrites, drawPixel, blendPixel, blendChannel,
      ratToU8, ratToU32, Outline.writes, Canvas.getPixel, Canvas.setPixel,
      white1, fullOutline, g0, Int.toNat]
  exact ⟨hwf, hv, h1,
    policy_a_recomposite_idempotent _ [g0] white1 _ (0, 0, 0) hwf hv h1⟩

/-- Counterexample to C3 as stated: one pixel at coverage 1/2 with black
over white blends 255 to 127 on the first pass and 127 to 63 on the
second, so re-compositing is not bit-identical in general. -/
theorem policy_a_recomposite_cex :
    render_glyphs (fun _ => some halfOutline) [g0] white1 (0, 0, 0) =
      .ok ⟨1, 1, [⟨127, 127, 127, 255⟩]⟩ ∧
    render_glyphs (fun _ => some halfOutline) [g0]
        ⟨1, 1, [⟨127, 127, 127, 255⟩]⟩ (0, 0, 0) =
      .ok ⟨1, 1, [⟨63, 63, 63, 255⟩]⟩ ∧
    (⟨1, 1, [⟨63, 63, 63, 255⟩]⟩ : Canvas) ≠
      ⟨1, 1, [⟨127, 127, 127, 255⟩]⟩ := by
  refine ⟨?_, ?_, by decide⟩ <;>
    norm_num [render_glyphs, applyWrites, drawPixel, blendPixel, blendChannel,
      ratToU8, ratToU32, Outline.writes, Canvas.getPixel, Canvas.setPixel,
      white1, halfOutline, g0, Int.toNat]

/-- C4 (code-bug evidence): a glyph whose pixel bounds start at x = 5 on a
1-by-1 canvas makes `render_glyphs` hit `get_pixel_mut` out of bounds —
the unchecked indexing panics (embedded as an error) instead of clipping
and writing the in-bounds pixels. -/
theorem render_glyphs_oob_faults :
    render_glyphs (fun _ => some oobOutline) [g0] white1 (0, 0, 0) =
      .error "image index out of bounds" := by
  norm_num [render_glyphs, applyWrites, drawPixel, Outline.writes, ratToU32,
    white1, oobOutline, g0, Int.toNat]

/-- C8: a glyph for which the font yields no outline composites to
nothing: the canvas is untouched, no error is raised, and the remaining
glyphs are processed as if it were absent. -/
theorem glyph_without_outline_skipped (og : Glyph → Option Outline)
    (g : Glyph) (gs : List Glyph) (imgbuf : Canvas)
    (color : Nat × Nat × Nat) (hg : og g = none) :
    render_glyphs og (g :: gs) imgbuf color =
      render_glyphs og gs imgbuf color := by
  rw [render_glyphs, hg]

/-- Witness for C8 with a font that outlines nothing. -/
theorem glyph_without_outline_skipped_witness :
    (fun _ : Glyph => (none : Option Outline)) g0 = none ∧
    render_glyphs (fun _ => none) [g0] white1 (0, 0, 0) =
      render_glyphs (fun _ => none) [] white1 (0, 0, 0) :=
  ⟨rfl, glyph_without_outline_skipped _ g0 [] white1 (0, 0, 0) rfl⟩

/-- C9: rendering the empty string is the identity on the canvas — layout
of the empty string emits no glyph, and compositing an empty glyph list
mutates no pixel — for every font, color and anchor position. -/
theorem render_empty_text_identity (font : FontM) (imgbuf : Canvas)
    (color : Nat × Nat × Nat) (pos : Pt) :
    layout_paragraph font.scaled pos ((1200 : ℚ) - 180) [] = [] ∧
    render_glyphs font.outline_glyph [] imgbuf color = .ok imgbuf ∧
    render_text font imgbuf [] color pos = .ok imgbuf :=
  ⟨rfl, rfl, rfl⟩

/-- C5 (amended): the `text` parameter check passes exactly the strings of
at most 150 UTF-8 bytes; a longer-than-150-byte text — in particular any
text of more than 150 characters — is rejected with a 400 error without
the font loader ever being consulted. -/
theorem text_param_check_bytes (s t : String)
    (load : Unit → Except (String × Nat) FontM)
    (hs : s.utf8ByteSize ≤ 150) (ht : 150 < t.utf8ByteSize) :
    text_param_check (some s) = .ok s ∧
    main_text_stage (some t) load =
      .error ("text parameter is too long", 400) := by
  constructor
  · rw [text_param_check, if_neg (by omega)]
  · rw [main_text_stage, text_param_check, if_pos ht]

set_option maxRecDepth 4000 in
/-- Witness for C5: 150 ASCII bytes pass; 151 ASCII bytes are rejected
with 400 whatever the font loader would do. -/
theorem text_param_check_bytes_witness :
    (String.mk (List.replicate 150 'a')).utf8ByteSize ≤ 150 ∧
    150 < (String.mk (List.replicate 151 'a')).utf8ByteSize ∧
    (text_param_check (some (String.mk (List.replicate 150 'a'))) =
        .ok (String.mk (List.replicate 150 'a')) ∧
      main_text_stage (some (String.mk (List.replicate 151 'a')))
          (fun _ => .error ("Internal Server Error", 500)) =
        .error ("text parameter is too long", 400)) :=
  ⟨by decide, by decide,
    text_param_check_bytes _ _ _ (by decide) (by decide)⟩

/-- Counterexample to C5 as stated: 51 copies of the three-byte character
U+3042 are 51 ≤ 150 characters but 153 UTF-8 bytes, and `text.len()`
counts bytes, so this text is rejected instead of passing. -/
theorem text_param_check_cex :
    (String.mk (List.replicate 51 'あ')).length ≤ 150 ∧
    text_param_check (some (String.mk (List.replicate 51 'あ'))) =
      .error ("text parameter is too long", 400) := by
  constructor <;> decide

end Ogpgen
